import Mathlib

/-!
# Verification of the cdtools forward-model core

This file gives a shallow embedding, in Lean 4 over Mathlib, of the parts of the
cdtools ptychography package that the frozen claims concern:

* the far-field propagator pair (`CDTools/tools/propagators.py`),
* the angular-spectrum near-field propagator kernel (same file),
* the bilinear-interpolation exit-wave routine `get_exit_waves` (same file),
* the probe-mode orthogonalization pipeline (`cdtools/tools/analysis/analysis.py`
  together with `FancyPtycho.tidy_probes` in `CDTools/models/fancy_ptycho.py`),
* the measurement model, loss selection, translation bookkeeping and probe
  rescaling of `FancyPtycho`.

Complex float tensors are idealized as functions into `ℂ`; the stacked-complex
last dimension of the torch tensors is absorbed into `ℂ`.  Machine floats are
idealized as real numbers.  The external numerical primitives (`torch.fft`,
`scipy.linalg.eigh`, `scipy.linalg.svd`, `numpy.linalg.pinv`) are treated as
correct implementations of their mathematical specifications: the FFT is the
discrete Fourier transform, and the matrix decompositions enter the theorems as
explicitly quantified factorizations satisfying their defining equations.

The file is organized as definitions first, then lemmas and theorems.
-/

noncomputable section

open Complex Finset Matrix

namespace CDTools

/-! ## Definitions: discrete Fourier transforms (the mathematical spec of `torch.fft`)

`torch.fft(x, 2)` (the legacy API used by the repository) computes the
unnormalized 2D discrete Fourier transform over the last two signal axes, and
`torch.ifft(x, 2)` its inverse, normalized by `1/(N*M)`.  We model a 2D array
by a function `ZMod N → ZMod M → ℂ`. -/

/-- One-dimensional unnormalized DFT: entry `k` of the transform of `f`,
`∑ j, exp(-2πi·j·k/N) · f j`.  This is the defining formula implemented by
`torch.fft` along one axis. -/
def fft1 {N : ℕ} [NeZero N] (f : ZMod N → ℂ) (k : ZMod N) : ℂ :=
  ∑ j : ZMod N, Complex.exp (-(2 * (Real.pi : ℂ) * Complex.I) *
    (j.val : ℂ) * (k.val : ℂ) / (N : ℂ)) * f j

/-- One-dimensional normalized inverse DFT,
`(1/N) ∑ j, exp(2πi·j·k/N) · f j`, the defining formula of `torch.ifft`
along one axis. -/
def ifft1 {N : ℕ} [NeZero N] (f : ZMod N → ℂ) (k : ZMod N) : ℂ :=
  (N : ℂ)⁻¹ * ∑ j : ZMod N, Complex.exp ((2 * (Real.pi : ℂ) * Complex.I) *
    (j.val : ℂ) * (k.val : ℂ) / (N : ℂ)) * f j

/-- 2D DFT, as the 1D transform applied along the second axis and then along
the first axis (this nested form is the standard factorization of the 2D DFT;
`fft2_eq_double_sum` below shows it equals the double-sum formula). -/
def fft2 {N M : ℕ} [NeZero N] [NeZero M] (f : ZMod N → ZMod M → ℂ)
    (k₁ : ZMod N) (k₂ : ZMod M) : ℂ :=
  fft1 (fun j₁ => fft1 (f j₁) k₂) k₁

/-- 2D inverse DFT, as the 1D inverse transform applied along the first axis
and then along the second axis (`ifft2_eq_double_sum` below shows this equals
the double-sum formula, so the nesting order is immaterial). -/
def ifft2 {N M : ℕ} [NeZero N] [NeZero M] (f : ZMod N → ZMod M → ℂ)
    (k₁ : ZMod N) (k₂ : ZMod M) : ℂ :=
  ifft1 (fun j₂ => ifft1 (fun j₁ => f j₁ j₂) k₁) k₂

/-- Modelled from the spec: `fftshift` of `CDTools.tools.cmath` (module not in
`src/`).  The spec describes it as moving the zero-frequency component to the
array center; for a length-`n` axis this is a circular roll by `⌊n/2⌋`, so the
shifted array reads the original at index `k - ⌊n/2⌋`. -/
def fftshift2 {N M : ℕ} [NeZero N] [NeZero M] (f : ZMod N → ZMod M → ℂ)
    (k₁ : ZMod N) (k₂ : ZMod M) : ℂ :=
  f (k₁ - (N / 2 : ℕ)) (k₂ - (M / 2 : ℕ))

/-- Modelled from the spec: `ifftshift` of `CDTools.tools.cmath` (module not in
`src/`), the inverse circular roll of `fftshift`. -/
def ifftshift2 {N M : ℕ} [NeZero N] [NeZero M] (f : ZMod N → ZMod M → ℂ)
    (k₁ : ZMod N) (k₂ : ZMod M) : ℂ :=
  f (k₁ + (N / 2 : ℕ)) (k₂ + (M / 2 : ℕ))

/-- `far_field` from `CDTools/tools/propagators.py`:
`fftshift(t.fft(wavefront, 2))`, applied to a `J`-stack of wavefronts. -/
def far_field {J N M : ℕ} [NeZero N] [NeZero M]
    (wavefront : Fin J → ZMod N → ZMod M → ℂ) :
    Fin J → ZMod N → ZMod M → ℂ :=
  fun j => fftshift2 (fft2 (wavefront j))

/-- `inverse_far_field` from `CDTools/tools/propagators.py`:
`t.ifft(ifftshift(wavefront), 2)`. -/
def inverse_far_field {J N M : ℕ} [NeZero N] [NeZero M]
    (wavefront : Fin J → ZMod N → ZMod M → ℂ) :
    Fin J → ZMod N → ZMod M → ℂ :=
  fun j => ifft2 (ifftshift2 (wavefront j))

/-- A concrete 1×2×2 stacked wavefront used to instantiate the propagator
round-trip theorem. -/
def sampleWave : Fin 1 → ZMod 2 → ZMod 2 → ℂ :=
  fun _ a b => (a.val : ℂ) + Complex.I * (b.val : ℂ)

/-! ## Definitions: probe-mode orthogonalization
(`orthogonalize_probes` in `cdtools/tools/analysis/analysis.py` and
`FancyPtycho.tidy_probes` / `FancyPtycho.get_rhos` in
`CDTools/models/fancy_ptycho.py`)

A stack of `K` probe modes over a pixel set `X` is a matrix
`Matrix (Fin K) X ℂ` (the code flattens the two image axes into one vector
axis; the pixel index type is abstract here).  Per-shot mixing weights, in the
claims' regime where the density-matrix rank equals the mode count, form a
square matrix `Matrix (Fin K) (Fin K) ℂ`. -/

/-- `FancyPtycho.get_rhos`: the per-shot density matrix
`rho = np.matmul(np.swapaxes(Ws, 1, 2), Ws.conj())`, i.e. `Wᵀ · W̄`,
with entries `rho k l = ∑ r, W r k * conj (W r l)`. -/
def get_rhos {R K : ℕ} (W : Matrix (Fin R) (Fin K) ℂ) :
    Matrix (Fin K) (Fin K) ℂ :=
  W.transpose * W.map (starRingEnd ℂ)

/-- `overall_rho = np.mean(rhos, axis=0)` in `tidy_probes`: the average of the
per-shot density matrices. -/
def overall_rho {S K : ℕ} (Ws : Fin S → Matrix (Fin K) (Fin K) ℂ) :
    Matrix (Fin K) (Fin K) ℂ :=
  (S : ℂ)⁻¹ • ∑ n, get_rhos (Ws n)

/-- The eigenvalue clipping `w = np.maximum(w, 0)` performed in both
`orthogonalize_probes` and `tidy_probes`. -/
def clip_eigs {K : ℕ} (w : Fin K → ℝ) : Fin K → ℝ :=
  fun i => max (w i) 0

/-- `B_dagger = np.dot(np.diag(np.sqrt(w)), v.conj().transpose())` from
`orthogonalize_probes`, computed from the (clipped) eigenvalues `w` and
eigenvector matrix `v` of the density matrix. -/
def B_dagger {K : ℕ} (w : Fin K → ℝ) (v : Matrix (Fin K) (Fin K) ℂ) :
    Matrix (Fin K) (Fin K) ℂ :=
  Matrix.diagonal (fun i => (Real.sqrt (clip_eigs w i) : ℂ)) * v.conjTranspose

/-- `ortho_probes = np.dot(np.diag(s), vh)` from `orthogonalize_probes`
(the default `normalize=False` branch used by `tidy_probes`), where `u, s, vh`
is the SVD of `B_dagger · probes_mat`. -/
def ortho_probes {K : ℕ} {X : Type} (s : Fin K → ℝ)
    (vh : Matrix (Fin K) X ℂ) : Matrix (Fin K) X ℂ :=
  Matrix.diagonal (fun i => (s i : ℂ)) * vh

/-- `A = np.dot(B_dagger_inv, u)` from `orthogonalize_probes`
(`normalize=False` branch), with `B_dagger_inv = np.linalg.pinv(B_dagger)`.
The pseudo-inverse is passed in explicitly; in the claims' full-rank regime it
is a (left) inverse of `B_dagger`, which is the hypothesis the theorems use. -/
def probe_transform {K : ℕ} (Bdinv u : Matrix (Fin K) (Fin K) ℂ) :
    Matrix (Fin K) (Fin K) ℂ :=
  Bdinv * u

/-- `new_rhos = np.matmul(Atrans, np.matmul(rhos, Aconj))` from `tidy_probes`:
the per-shot density matrix re-expressed in the orthogonal basis,
`Aᵀ · rho · A̅`. -/
def transformed_rho {K : ℕ} (A rho : Matrix (Fin K) (Fin K) ℂ) :
    Matrix (Fin K) (Fin K) ℂ :=
  A.transpose * rho * A.map (starRingEnd ℂ)

/-- The per-shot weight matrix rebuilt by `tidy_probes`,
`np.dot(np.diag(np.sqrt(w)), v.transpose())` after clipping `w` at zero, from
the eigendecomposition `w, v` of the transformed per-shot density matrix
(full rank kept: `dm_rank` equals the mode count in the claims' regime). -/
def new_Ws {K : ℕ} (w : Fin K → ℝ) (v : Matrix (Fin K) (Fin K) ℂ) :
    Matrix (Fin K) (Fin K) ℂ :=
  Matrix.diagonal (fun i => (Real.sqrt (clip_eigs w i) : ℂ)) * v.transpose

/-- Specification of `scipy.linalg.eigh` (treated as a correct external
primitive): `w, v` is an eigendecomposition of the Hermitian matrix `ρ` when
`ρ = v · diag(w) · vᴴ` with `v` unitary.  Reversing the order of the
eigenpairs, as the code does, preserves this predicate. -/
def IsEigh {K : ℕ} (ρ : Matrix (Fin K) (Fin K) ℂ) (w : Fin K → ℝ)
    (v : Matrix (Fin K) (Fin K) ℂ) : Prop :=
  ρ = v * Matrix.diagonal (fun i => (w i : ℂ)) * v.conjTranspose ∧
    v.conjTranspose * v = 1

/-- Specification of `scipy.linalg.svd` with `full_matrices=False` (treated as
a correct external primitive) for a `K × X` matrix with `K ≤ |X|`:
`M = u · diag(s) · vh` with `u` unitary, `vh` having orthonormal rows, and
non-negative singular values. -/
def IsSVD {K : ℕ} {X : Type} [Fintype X] (M : Matrix (Fin K) X ℂ)
    (u : Matrix (Fin K) (Fin K) ℂ) (s : Fin K → ℝ)
    (vh : Matrix (Fin K) X ℂ) : Prop :=
  M = u * Matrix.diagonal (fun i => (s i : ℂ)) * vh ∧
    u.conjTranspose * u = 1 ∧
    vh * vh.conjTranspose = 1 ∧
    ∀ i, 0 ≤ s i

/-- The per-shot, per-pixel predicted incoherent-sum intensity produced from a
probe stack `P` and a per-shot weight matrix `W` (the model's interaction
builds the generalized modes `W · P` and the measurement sums their squared
magnitudes): `∑ r, |∑ k, W r k · P k x|²`. -/
def shot_intensity {R K : ℕ} {X : Type} [Fintype X]
    (W : Matrix (Fin R) (Fin K) ℂ) (P : Matrix (Fin K) X ℂ) (x : X) : ℝ :=
  ∑ r, Complex.normSq ((W * P) r x)

/-- The same intensity expressed through the density matrix:
`∑ k l, ρ k l · P k x · conj (P l x)` (a complex number; it is real for
genuine density matrices). -/
def rho_intensity {K : ℕ} {X : Type} [Fintype X]
    (ρ : Matrix (Fin K) (Fin K) ℂ) (P : Matrix (Fin K) X ℂ) (x : X) : ℂ :=
  ∑ k, ∑ l, ρ k l * P k x * (starRingEnd ℂ) (P l x)

/-! ## Definitions: measurement model (`FancyPtycho.measurement`)

`FancyPtycho.measurement` calls `tools.measurements.quadratic_background`
with `measurement=incoherent_sum`; the `measurements` module is not in `src/`,
so those two functions are modelled from the spec, per pixel. -/

/-- Modelled from the spec: `incoherent_sum` of `CDTools.tools.measurements`
(module not in `src/`): the per-pixel incoherent sum of squared magnitudes
over the mode stack. -/
def incoherent_sum {K : ℕ} (modes : Fin K → ℂ) : ℝ :=
  ∑ m, Complex.normSq (modes m)

/-- Modelled from the spec: `quadratic_background` of
`CDTools.tools.measurements` (module not in `src/`), per pixel: add the square
of the stored square-root background to the incoherent mode sum, then, if a
saturation value is configured, clip the result from above at that value. -/
def quadratic_background {K : ℕ} (modes : Fin K → ℂ) (background : ℝ)
    (saturation : Option ℝ) : ℝ :=
  match saturation with
  | none => incoherent_sum modes + background ^ 2
  | some sat => min (incoherent_sum modes + background ^ 2) sat

/-! ## Definitions: interaction translation bookkeeping
(`FancyPtycho.interaction`, steps 1–2) -/

/-- The pixel-translation computation at the start of
`FancyPtycho.interaction`: convert the physical translation to pixels through
the abstract conversion `t2p` (the collaborator
`tools.interactions.translations_to_pixel`, module not in `src/`, which
applies the inverse probe basis with the surface-normal projection), subtract
the stored global minimum translation, and, exactly when learned translation
offsets exist, add `translation_scale` times the indexed offset. -/
def interaction_pix_trans {τ ι : Type} (t2p : τ → Fin 2 → ℝ)
    (min_translation : Fin 2 → ℝ)
    (translation_offsets : Option (ι → Fin 2 → ℝ))
    (translation_scale : ℝ) (index : ι) (translation : τ) : Fin 2 → ℝ :=
  match translation_offsets with
  | none => fun d => t2p translation d - min_translation d
  | some offsets => fun d =>
      (t2p translation d - min_translation d) +
        translation_scale * offsets index d

/-! ## Definitions: construction-time validation
(`FancyPtycho.__init__` loss dispatch and `FancyPtycho.from_dataset`
density-matrix-rank check) -/

/-- The two supported loss functions. -/
inductive LossKind where
  | amplitude_mse
  | poisson_nll
deriving DecidableEq

/-- Python `str.lower` on one character, for the ASCII range relevant to the
loss-name strings: map an upper-case ASCII letter to its lower-case form. -/
def py_lower_char (c : Char) : Char :=
  if 'A' ≤ c ∧ c ≤ 'Z' then Char.ofNat (c.toNat + 32) else c

/-- Python `str.lower` (ASCII fragment), char-by-char on the string's
character list. -/
def py_lower (s : String) : String :=
  String.mk (s.data.map py_lower_char)

/-- Python `str.strip`: drop leading and trailing whitespace. -/
def py_strip (s : String) : String :=
  String.mk
    (((s.data.dropWhile Char.isWhitespace).reverse.dropWhile
      Char.isWhitespace).reverse)

/-- The normalization `loss.lower().strip()` applied by `__init__` before the
string comparison. -/
def normalize_loss (loss : String) : String :=
  py_strip (py_lower loss)

/-- The loss dispatch at the end of `FancyPtycho.__init__`: the recognized
spellings (after `.lower().strip()`) select a loss function; any other string
raises `KeyError('Specified loss function not supported')`. -/
def select_loss (loss : String) : Except String LossKind :=
  if normalize_loss loss = "amplitude mse" ∨ normalize_loss loss = "amplitude_mse" then
    Except.ok LossKind.amplitude_mse
  else if normalize_loss loss = "poisson nll" ∨ normalize_loss loss = "poisson_nll" then
    Except.ok LossKind.poisson_nll
  else
    Except.error "Specified loss function not supported"

/-- The two shapes of initial mixing weights `from_dataset` can build. -/
inductive WeightsInit where
  | scalar
  | matrix (dm_rank : ℕ)
deriving DecidableEq

/-- The density-matrix-rank handling of `FancyPtycho.from_dataset`:
`dm_rank = None` or `0` selects the scalar-weight incoherent model; otherwise
a rank greater than `n_modes` raises a descriptive `KeyError`, `dm_rank = -1`
means full rank (`n_modes`), and any other value reaches
`Ws = t.zeros(len(dataset), dm_rank, n_modes)` as the weight-matrix rank.
For the values that slip past the explicit checks while still negative
(`dm_rank ≤ -2`), that `t.zeros` call raises torch's non-descriptive
negative-dimension `RuntimeError`; the fallible allocation is modelled by the
corresponding error value. -/
def validate_dm_rank (dm_rank : Option ℤ) (n_modes : ℕ) :
    Except String WeightsInit :=
  match dm_rank with
  | none => Except.ok WeightsInit.scalar
  | some r =>
    if r ≠ 0 then
      if r > (n_modes : ℤ) then
        Except.error "Density matrix rank cannot be greater than the number of modes. Use dm_rank = -1 to use a full rank matrix."
      else if r = -1 then
        Except.ok (WeightsInit.matrix n_modes)
      else if r < 0 then
        Except.error "Trying to create tensor with negative dimension"
      else
        Except.ok (WeightsInit.matrix r.toNat)
    else
      Except.ok WeightsInit.scalar

/-! ## Definitions: probe rescaling (`FancyPtycho.__init__`, `interaction`,
`save_results`) -/

/-- `probe_norm = 1 * t.max(t.abs(probe_guess[0]))` from `FancyPtycho.__init__`
(the stacked-probe branch, `probe_guess.dim() > 2`): the maximum modulus of
the first probe-guess mode. -/
def probe_norm {K : ℕ} {X : Type} [Fintype X] [Nonempty X]
    (probe_guess : Fin (K + 1) → X → ℂ) : ℝ :=
  Finset.univ.sup' Finset.univ_nonempty
    (fun x => Complex.abs (probe_guess 0 x))

/-- The stored probe parameter,
`self.probe = t.nn.Parameter(probe_guess / self.probe_norm)`. -/
def stored_probe {K : ℕ} {X : Type} [Fintype X] [Nonempty X]
    (probe_guess : Fin (K + 1) → X → ℂ) : Fin (K + 1) → X → ℂ :=
  fun k x => probe_guess k x / ((probe_norm probe_guess : ℝ) : ℂ)

/-- The probe exported by `FancyPtycho.save_results`:
`probe = probe * self.probe_norm`. -/
def saved_probe {K : ℕ} {X : Type} [Fintype X] [Nonempty X]
    (probe_guess : Fin (K + 1) → X → ℂ) : Fin (K + 1) → X → ℂ :=
  fun k x => stored_probe probe_guess k x * ((probe_norm probe_guess : ℝ) : ℂ)

/-- The exit waves computed by `FancyPtycho.interaction`:
`exit_waves = self.probe_norm * (downstream pipeline applied to the stored
probe)`, where the downstream pipeline `F` (probe-support mask, weight mixing
and `ptycho_2D_sinc`, the latter not in `src/`) is linear in the probe. -/
def interaction_exit_waves {K : ℕ} {X ι : Type} [Fintype X] [Nonempty X]
    (F : (Fin (K + 1) → X → ℂ) → ι → ℂ)
    (probe_guess : Fin (K + 1) → X → ℂ) : ι → ℂ :=
  fun i => ((probe_norm probe_guess : ℝ) : ℂ) * F (stored_probe probe_guess) i

/-- A probe guess whose first mode is identically zero but whose second mode
is not (the degenerate input refuting the unconditional form of the
probe-rescaling claim). -/
def gZero : Fin 2 → Fin 1 → ℂ :=
  fun k _ => if k = 0 then 0 else 1

/-- A nonzero constant single-mode probe guess. -/
def gTwo : Fin 1 → Fin 1 → ℂ :=
  fun _ _ => 2

/-- A minimal linear downstream interaction pipeline: read off the probe at
mode 0, pixel 0. -/
def Fhead : (Fin 1 → Fin 1 → ℂ) → Fin 1 → ℂ :=
  fun p _ => p 0 0

/-! ## Definitions: `get_exit_waves` (`CDTools/tools/propagators.py`)

`get_exit_waves` slices four one-pixel-shifted windows out of the object with
Python slicing (which truncates at the array boundary and wraps negative
start indices), combines them with bilinear weights derived from the
fractional part of the translation, and multiplies the probe in.  To capture
the shape behaviour of the torch tensors faithfully we model a 2D array as an
explicit (rows, cols, entries) record, with entries normalized to `0` outside
the bounds, and binary tensor operations with torch's size-1 broadcasting
rule, failing (`none`) on incompatible shapes exactly where torch raises. -/

/-- A 2D complex array: shape plus entries (normalized to `0` out of
bounds by the `arr_of` constructor, which all operations use). -/
structure NDArr where
  nrows : ℕ
  ncols : ℕ
  entry : ℕ → ℕ → ℂ

/-- Build an array of shape `r × c` with given entries, zero outside. -/
def arr_of (r c : ℕ) (f : ℕ → ℕ → ℂ) : NDArr :=
  ⟨r, c, fun i j => if i < r ∧ j < c then f i j else 0⟩

/-- Python slice-index normalization for a start or stop index of a slice
over an axis of length `len`: negative indices count from the end (clamped at
`0`), non-negative ones are clamped at `len`. -/
def py_slice_start (len : ℕ) (a : ℤ) : ℕ :=
  if a < 0 then ((len : ℤ) + a).toNat else min a.toNat len

/-- Number of elements selected by the Python slice `[a:b]` over an axis of
length `len`. -/
def py_slice_len (len : ℕ) (a b : ℤ) : ℕ :=
  py_slice_start len b - py_slice_start len a

/-- The window `object[r0 : r0+h, c0 : c0+w]` with Python slicing semantics
(as used for `sel00`, `sel01`, `sel10`, `sel11` in `get_exit_waves`): the
selected block, possibly truncated at the object boundary. -/
def window (obj : NDArr) (r0 c0 : ℤ) (h w : ℕ) : NDArr :=
  arr_of (py_slice_len obj.nrows r0 (r0 + h)) (py_slice_len obj.ncols c0 (c0 + w))
    (fun i j => obj.entry (py_slice_start obj.nrows r0 + i)
      (py_slice_start obj.ncols c0 + j))

/-- Multiplication of an array by a real scalar (the bilinear interpolation
weights). -/
def smul_arr (t : ℝ) (A : NDArr) : NDArr :=
  arr_of A.nrows A.ncols (fun i j => (t : ℂ) * A.entry i j)

/-- Torch broadcasting of one axis: sizes must agree or one must be `1`. -/
def bdim (a b : ℕ) : Option ℕ :=
  if a = b then some a else if a = 1 then some b else if b = 1 then some a else none

/-- The index into an axis of size `n` when broadcasting to a larger axis. -/
def bidx (n i : ℕ) : ℕ :=
  if n = 1 then 0 else i

/-- An elementwise binary torch tensor operation with size-1 broadcasting;
`none` models the shape-mismatch `RuntimeError` torch raises. -/
def bcast_op (op : ℂ → ℂ → ℂ) (A B : NDArr) : Option NDArr :=
  match bdim A.nrows B.nrows, bdim A.ncols B.ncols with
  | some r, some c => some (arr_of r c (fun i j =>
      op (A.entry (bidx A.nrows i) (bidx A.ncols j))
         (B.entry (bidx B.nrows i) (bidx B.ncols j))))
  | _, _ => none

/-- Elementwise tensor addition (used to combine the four weighted window
selections). -/
def arr_add : NDArr → NDArr → Option NDArr :=
  bcast_op (· + ·)

/-- Modelled from the spec: `cmult` of `CDTools.tools.cmath` (module not in
`src/`): elementwise complex multiplication of stacked-complex tensors, with
torch broadcasting. -/
def cmult : NDArr → NDArr → Option NDArr :=
  bcast_op (· * ·)

/-- One exit wave of `get_exit_waves` (`CDTools/tools/propagators.py`): split
the translation into integer part (window choice) and fractional part
(bilinear weights), extract the four one-pixel-shifted windows, combine them
with the bilinear weights, and multiply by the probe. -/
def exit_wave_at (probe obj : NDArr) (tr₁ tr₂ : ℝ) : Option NDArr :=
  match arr_add
      (smul_arr ((1 - (tr₁ - (⌊tr₁⌋ : ℝ))) * (1 - (tr₂ - (⌊tr₂⌋ : ℝ))))
        (window obj ⌊tr₁⌋ ⌊tr₂⌋ probe.nrows probe.ncols))
      (smul_arr ((1 - (tr₁ - (⌊tr₁⌋ : ℝ))) * (tr₂ - (⌊tr₂⌋ : ℝ)))
        (window obj ⌊tr₁⌋ (⌊tr₂⌋ + 1) probe.nrows probe.ncols)) with
  | none => none
  | some s1 =>
    match arr_add s1
        (smul_arr ((tr₁ - (⌊tr₁⌋ : ℝ)) * (1 - (tr₂ - (⌊tr₂⌋ : ℝ))))
          (window obj (⌊tr₁⌋ + 1) ⌊tr₂⌋ probe.nrows probe.ncols)) with
    | none => none
    | some s2 =>
      match arr_add s2
          (smul_arr ((tr₁ - (⌊tr₁⌋ : ℝ)) * (tr₂ - (⌊tr₂⌋ : ℝ)))
            (window obj (⌊tr₁⌋ + 1) (⌊tr₂⌋ + 1) probe.nrows probe.ncols)) with
      | none => none
      | some selection => cmult probe selection

/-- `get_exit_waves`: the stack of exit waves over the translation list;
`none` if any selection combination fails on shapes. -/
def get_exit_waves (probe obj : NDArr) (translations : List (ℝ × ℝ)) :
    Option (List NDArr) :=
  translations.mapM (fun tr => exit_wave_at probe obj tr.1 tr.2)

/-- A 1×3 all-ones probe (counterexample input). -/
def probe13 : NDArr := arr_of 1 3 (fun _ _ => 1)

/-- A 1×3 all-ones object (counterexample input). -/
def obj13 : NDArr := arr_of 1 3 (fun _ _ => 1)

/-! ## Definitions: angular-spectrum propagator
(`generate_angular_spectrum_propagator` and `near_field` in
`CDTools/tools/propagators.py`) -/

/-- `scipy.fftpack.fftfreq(n, d)`: the FFT sample-frequency grid, `k/(n·d)`
for the first `⌈n/2⌉` indices and `(k−n)/(n·d)` for the rest. -/
def fftfreq (n : ℕ) (d : ℝ) (k : ℕ) : ℝ :=
  if 2 * k < n then (k : ℝ) / (n * d) else ((k : ℝ) - n) / (n * d)

/-- The kernel built by `generate_angular_spectrum_propagator`:
`ki = fftfreq(shape[0], spacing[0])`, `kj = fftfreq(shape[1], spacing[1])`,
`Ki, Kj = np.meshgrid(ki, kj)` — numpy's default `'xy'` indexing, so the
returned array has shape `(shape[1], shape[0])` with `Ki[a,b] = ki[b]` and
`Kj[a,b] = kj[a]` — then `exp(1j·sqrt((2π/λ)² − Ki² − Kj²)·z)`.  The real
square root mirrors `np.sqrt` on its non-negative domain (for negative
arguments `np.sqrt` of the real array yields NaN; the inputs considered here
stay non-negative). -/
def generate_angular_spectrum_propagator (shape : ℕ × ℕ) (spacing : ℝ × ℝ)
    (wavelength z : ℝ) : Matrix (Fin shape.2) (Fin shape.1) ℂ :=
  fun a b => Complex.exp (Complex.I *
    ((Real.sqrt ((2 * Real.pi / wavelength) ^ 2
      - fftfreq shape.1 spacing.1 (b : ℕ) ^ 2
      - fftfreq shape.2 spacing.2 (a : ℕ) ^ 2) : ℝ) : ℂ) * (z : ℂ))

/-- The kernel as the claim states it: `exp(i·sqrt((2π/λ)² − kx² − ky²)·z)`
on the FFT frequency grid of the given shape and spacing, with `kx`
(`fftfreq(shape[0], spacing[0])`) varying along the FIRST array axis and `ky`
along the second, so the array has shape `(shape[0], shape[1])`. -/
def claimed_angular_spectrum_propagator (shape : ℕ × ℕ) (spacing : ℝ × ℝ)
    (wavelength z : ℝ) : Matrix (Fin shape.1) (Fin shape.2) ℂ :=
  fun a b => Complex.exp (Complex.I *
    ((Real.sqrt ((2 * Real.pi / wavelength) ^ 2
      - fftfreq shape.1 spacing.1 (a : ℕ) ^ 2
      - fftfreq shape.2 spacing.2 (b : ℕ) ^ 2) : ℝ) : ℂ) * (z : ℂ))

/-- `near_field` from `CDTools/tools/propagators.py`:
`t.ifft(propagator * t.fft(wavefront, 2), 2)`.  The elementwise product
forces the kernel to have the wavefront's shape `(N, M)`; the kernel the code
builds has shape `(M, N)`, so for `N ≠ M` this multiplication is a torch
shape error. -/
def near_field {N M : ℕ} [NeZero N] [NeZero M]
    (wavefront kernel : ZMod N → ZMod M → ℂ) : ZMod N → ZMod M → ℂ :=
  fun k₁ k₂ => ifft2 (fun a b => kernel a b * fft2 wavefront a b) k₁ k₂

end CDTools

namespace CDTools

/-! ## Lemmas and theorems -/

lemma exp_neg_eq_stdAddChar {N : ℕ} [NeZero N] (j k : ZMod N) :
    Complex.exp (-(2 * (Real.pi : ℂ) * Complex.I) *
      (j.val : ℂ) * (k.val : ℂ) / (N : ℂ)) = ZMod.stdAddChar (-(j * k)) := by
  have hc : ((-(j.val * k.val : ℤ) : ℤ) : ZMod N) = -(j * k) := by
    push_cast
    rw [ZMod.natCast_zmod_val, ZMod.natCast_zmod_val]
  rw [← hc, ZMod.stdAddChar_coe]
  congr 1
  push_cast
  ring

lemma exp_pos_eq_stdAddChar {N : ℕ} [NeZero N] (j k : ZMod N) :
    Complex.exp ((2 * (Real.pi : ℂ) * Complex.I) *
      (j.val : ℂ) * (k.val : ℂ) / (N : ℂ)) = ZMod.stdAddChar (j * k) := by
  have hc : (((j.val * k.val : ℤ) : ℤ) : ZMod N) = j * k := by
    push_cast
    rw [ZMod.natCast_zmod_val, ZMod.natCast_zmod_val]
  rw [← hc, ZMod.stdAddChar_coe]
  congr 1
  push_cast
  ring

lemma fft1_eq_dft {N : ℕ} [NeZero N] (f : ZMod N → ℂ) :
    fft1 f = ZMod.dft f := by
  funext k
  rw [fft1, ZMod.dft_apply]
  refine Finset.sum_congr rfl fun j _ => ?_
  rw [exp_neg_eq_stdAddChar, smul_eq_mul]

lemma ifft1_eq_invDFT {N : ℕ} [NeZero N] (f : ZMod N → ℂ) :
    ifft1 f = (ZMod.dft).symm f := by
  funext k
  rw [ifft1, ZMod.invDFT_apply, smul_eq_mul]
  congr 1
  refine Finset.sum_congr rfl fun j _ => ?_
  rw [exp_pos_eq_stdAddChar, smul_eq_mul]

/-- The 1D inverse DFT inverts the 1D DFT. -/
lemma ifft1_fft1 {N : ℕ} [NeZero N] (f : ZMod N → ℂ) : ifft1 (fft1 f) = f := by
  rw [fft1_eq_dft, ifft1_eq_invDFT]
  exact LinearEquiv.symm_apply_apply _ f

/-- The nested form of `fft2` agrees with the textbook double-sum formula for
the 2D DFT. -/
lemma fft2_eq_double_sum {N M : ℕ} [NeZero N] [NeZero M]
    (f : ZMod N → ZMod M → ℂ) (k₁ : ZMod N) (k₂ : ZMod M) :
    fft2 f k₁ k₂ = ∑ j₁ : ZMod N, ∑ j₂ : ZMod M,
      Complex.exp (-(2 * (Real.pi : ℂ) * Complex.I) *
          ((j₁.val : ℂ) * (k₁.val : ℂ) / (N : ℂ) +
           (j₂.val : ℂ) * (k₂.val : ℂ) / (M : ℂ))) * f j₁ j₂ := by
  rw [fft2, fft1]
  refine Finset.sum_congr rfl fun j₁ _ => ?_
  rw [fft1, Finset.mul_sum]
  refine Finset.sum_congr rfl fun j₂ _ => ?_
  rw [← mul_assoc, ← Complex.exp_add]
  congr 2
  ring

/-- The nested form of `ifft2` agrees with the textbook double-sum formula for
the normalized 2D inverse DFT. -/
lemma ifft2_eq_double_sum {N M : ℕ} [NeZero N] [NeZero M]
    (f : ZMod N → ZMod M → ℂ) (k₁ : ZMod N) (k₂ : ZMod M) :
    ifft2 f k₁ k₂ = ((N : ℂ) * (M : ℂ))⁻¹ * ∑ j₁ : ZMod N, ∑ j₂ : ZMod M,
      Complex.exp ((2 * (Real.pi : ℂ) * Complex.I) *
          ((j₁.val : ℂ) * (k₁.val : ℂ) / (N : ℂ) +
           (j₂.val : ℂ) * (k₂.val : ℂ) / (M : ℂ))) * f j₁ j₂ := by
  rw [ifft2]
  simp only [ifft1, Finset.mul_sum]
  conv_rhs => rw [Finset.sum_comm]
  refine Finset.sum_congr rfl fun j₂ _ => ?_
  refine Finset.sum_congr rfl fun j₁ _ => ?_
  have he : (2 * (Real.pi : ℂ) * Complex.I) *
      ((j₁.val : ℂ) * (k₁.val : ℂ) / (N : ℂ) +
       (j₂.val : ℂ) * (k₂.val : ℂ) / (M : ℂ)) =
      (2 * (Real.pi : ℂ) * Complex.I) * (j₁.val : ℂ) * (k₁.val : ℂ) / (N : ℂ) +
      (2 * (Real.pi : ℂ) * Complex.I) * (j₂.val : ℂ) * (k₂.val : ℂ) / (M : ℂ) := by
    ring
  rw [he, Complex.exp_add, mul_inv]
  ring

lemma ifft2_fft2 {N M : ℕ} [NeZero N] [NeZero M] (f : ZMod N → ZMod M → ℂ) :
    (fun k₁ k₂ => ifft2 (fun a b => fft2 f a b) k₁ k₂) = f := by
  funext k₁ k₂
  have hfix : ∀ j₂ : ZMod M,
      ifft1 (fun j₁ => fft2 f j₁ j₂) k₁ = fft1 (f k₁) j₂ := by
    intro j₂
    have : (fun j₁ => fft2 f j₁ j₂) = fft1 (fun a => fft1 (f a) j₂) := by
      funext j₁
      rfl
    rw [this, ifft1_fft1]
  calc ifft2 (fun a b => fft2 f a b) k₁ k₂
      = ifft1 (fun j₂ => ifft1 (fun j₁ => fft2 f j₁ j₂) k₁) k₂ := rfl
    _ = ifft1 (fft1 (f k₁)) k₂ := by
        congr 1
        funext j₂
        exact hfix j₂
    _ = f k₁ k₂ := congrFun (ifft1_fft1 (f k₁)) k₂

lemma ifftshift2_fftshift2 {N M : ℕ} [NeZero N] [NeZero M]
    (f : ZMod N → ZMod M → ℂ) :
    (fun k₁ k₂ => ifftshift2 (fun a b => fftshift2 f a b) k₁ k₂) = f := by
  funext k₁ k₂
  show f (k₁ + (N / 2 : ℕ) - (N / 2 : ℕ)) (k₂ + (M / 2 : ℕ) - (M / 2 : ℕ)) = f k₁ k₂
  rw [add_sub_cancel_right, add_sub_cancel_right]

/-- C2: for every complex wavefield stack `W` in the `JxNxMx2` stacked-complex
layout, `inverse_far_field (far_field W) = W`: the far-field propagator
(`fftshift` of the 2D FFT) is exactly inverted by `inverse_far_field`
(the 2D inverse FFT of the `ifftshift`). -/
theorem far_field_roundtrip {J N M : ℕ} [NeZero N] [NeZero M]
    (W : Fin J → ZMod N → ZMod M → ℂ) :
    inverse_far_field (far_field W) = W := by
  funext j
  show ifft2 (ifftshift2 (fftshift2 (fft2 (W j)))) = W j
  have h1 : ifftshift2 (fftshift2 (fft2 (W j))) = fft2 (W j) :=
    ifftshift2_fftshift2 (fft2 (W j))
  rw [h1]
  exact ifft2_fft2 (W j)

/-- C2 witness: the round trip at a concrete 1×2×2 wavefront. -/
theorem far_field_roundtrip_witness :
    inverse_far_field (far_field sampleWave) = sampleWave :=
  far_field_roundtrip sampleWave

/-! ### Lemmas for the orthogonalization pipeline -/

lemma map_starRingEnd_eq {m n : Type} (A : Matrix m n ℂ) :
    A.map (starRingEnd ℂ) = A.map star := by
  ext i j
  simp [Matrix.map_apply]

lemma conjTranspose_eq_map_transpose {m n : Type} (A : Matrix m n ℂ) :
    A.conjTranspose = (A.map star).transpose := by
  ext i j
  simp [Matrix.conjTranspose_apply, Matrix.map_apply, Matrix.transpose_apply]

/-- The column of pixel values of a matrix product: `(W * P) · x = W *ᵥ (P · x)`. -/
lemma pix_mul {R K : ℕ} {X : Type} [Fintype X]
    (W : Matrix (Fin R) (Fin K) ℂ) (P : Matrix (Fin K) X ℂ) (x : X) :
    (fun r => (W * P) r x) = W *ᵥ (fun k => P k x) := by
  funext r
  rw [Matrix.mul_apply]
  rfl

/-- Entrywise description of `get_rhos`. -/
lemma get_rhos_apply {R K : ℕ} (W : Matrix (Fin R) (Fin K) ℂ) (k l : Fin K) :
    get_rhos W k l = ∑ r, W r k * (starRingEnd ℂ) (W r l) := by
  rw [get_rhos, Matrix.mul_apply]
  refine Finset.sum_congr rfl fun r _ => ?_
  rw [Matrix.transpose_apply, Matrix.map_apply]

/-- `rho_intensity` as a quadratic form in the pixel column. -/
lemma rho_intensity_eq_dot {K : ℕ} {X : Type} [Fintype X]
    (ρ : Matrix (Fin K) (Fin K) ℂ) (P : Matrix (Fin K) X ℂ) (x : X) :
    rho_intensity ρ P x
      = (fun k => P k x) ⬝ᵥ (ρ *ᵥ star (fun k => P k x)) := by
  rw [rho_intensity, Matrix.dotProduct]
  refine Finset.sum_congr rfl fun k _ => ?_
  show (∑ l, ρ k l * P k x * (starRingEnd ℂ) (P l x))
      = P k x * ∑ l, ρ k l * star (P l x)
  rw [Finset.mul_sum]
  refine Finset.sum_congr rfl fun l _ => ?_
  rw [Complex.star_def]
  ring

/-- Conjugating a matrix and applying it to the conjugated vector is the
conjugate of the plain application. -/
lemma map_star_mulVec_star {R K : ℕ}
    (W : Matrix (Fin R) (Fin K) ℂ) (p : Fin K → ℂ) :
    (W.map (starRingEnd ℂ)) *ᵥ star p = star (W *ᵥ p) := by
  rw [Matrix.star_mulVec, map_starRingEnd_eq, conjTranspose_eq_map_transpose,
    Matrix.vecMul_transpose]

/-- Pulling the matrix of a `mulVec` across the dot product transposes it. -/
lemma mulVec_dotProduct_shift {R K : ℕ}
    (W : Matrix (Fin R) (Fin K) ℂ) (p : Fin K → ℂ) (q : Fin R → ℂ) :
    p ⬝ᵥ (W.transpose *ᵥ q) = (W *ᵥ p) ⬝ᵥ q := by
  rw [Matrix.dotProduct_mulVec, Matrix.vecMul_transpose]

/-- The incoherent-sum intensity equals the density-matrix quadratic form:
`∑ r |（W·P) r x|² = ∑ k l, rho k l · P k x · conj (P l x)` with
`rho = get_rhos W`. -/
lemma shot_intensity_eq_rho {R K : ℕ} {X : Type} [Fintype X]
    (W : Matrix (Fin R) (Fin K) ℂ) (P : Matrix (Fin K) X ℂ) (x : X) :
    ((shot_intensity W P x : ℝ) : ℂ) = rho_intensity (get_rhos W) P x := by
  rw [rho_intensity_eq_dot, get_rhos, ← Matrix.mulVec_mulVec,
    map_star_mulVec_star, mulVec_dotProduct_shift]
  rw [shot_intensity, Complex.ofReal_sum, Matrix.dotProduct]
  refine Finset.sum_congr rfl fun r _ => ?_
  rw [Pi.star_apply, show (W *ᵥ fun k => P k x) r = (W * P) r x from
    (congrFun (pix_mul W P x) r).symm]
  rw [Complex.star_def, Complex.mul_conj]

/-- Re-expressing the probes through a linear transform conjugates the density
matrix: the quadratic form of `ρ` at `A * P` equals the quadratic form of
`Aᵀ · ρ · A̅` at `P`. -/
lemma rho_intensity_transform {K : ℕ} {X : Type} [Fintype X]
    (A ρ : Matrix (Fin K) (Fin K) ℂ) (P : Matrix (Fin K) X ℂ) (x : X) :
    rho_intensity ρ (A * P) x = rho_intensity (transformed_rho A ρ) P x := by
  rw [rho_intensity_eq_dot, rho_intensity_eq_dot, pix_mul,
    ← map_star_mulVec_star, Matrix.mulVec_mulVec, ← mulVec_dotProduct_shift,
    Matrix.mulVec_mulVec]
  simp only [transformed_rho, Matrix.mul_assoc]

/-- `get_rhos` of the rebuilt per-shot weights recovers the eigendecomposition
with clipped eigenvalues: `(diag(√w⁺)·vᵀ)ᵀ · conj(diag(√w⁺)·vᵀ) = v · diag(w⁺) · vᴴ`. -/
lemma get_rhos_new_Ws {K : ℕ} (w : Fin K → ℝ) (v : Matrix (Fin K) (Fin K) ℂ) :
    get_rhos (new_Ws w v)
      = v * Matrix.diagonal (fun i => (clip_eigs w i : ℂ)) * v.conjTranspose := by
  rw [get_rhos, new_Ws, Matrix.transpose_mul, Matrix.transpose_transpose,
    Matrix.diagonal_transpose, Matrix.map_mul]
  have hD : (Matrix.diagonal
        (fun i => (Real.sqrt (clip_eigs w i) : ℂ))).map (starRingEnd ℂ)
      = Matrix.diagonal (fun i => (Real.sqrt (clip_eigs w i) : ℂ)) := by
    rw [Matrix.diagonal_map (map_zero _)]
    exact congrArg Matrix.diagonal (funext fun i => Complex.conj_ofReal _)
  have hv : (v.transpose).map (starRingEnd ℂ) = v.conjTranspose := by
    rw [map_starRingEnd_eq, Matrix.transpose_map, ← conjTranspose_eq_map_transpose]
  rw [hD, hv]
  calc (v * Matrix.diagonal (fun i => (Real.sqrt (clip_eigs w i) : ℂ))) *
        (Matrix.diagonal (fun i => (Real.sqrt (clip_eigs w i) : ℂ)) * v.conjTranspose)
      = v * ((Matrix.diagonal (fun i => (Real.sqrt (clip_eigs w i) : ℂ)) *
          Matrix.diagonal (fun i => (Real.sqrt (clip_eigs w i) : ℂ))) * v.conjTranspose) := by
        rw [Matrix.mul_assoc, ← Matrix.mul_assoc
          (Matrix.diagonal (fun i => (Real.sqrt (clip_eigs w i) : ℂ)))]
    _ = v * (Matrix.diagonal (fun i => (clip_eigs w i : ℂ)) * v.conjTranspose) := by
        rw [Matrix.diagonal_mul_diagonal]
        have hd : (fun i => ((Real.sqrt (clip_eigs w i) : ℝ) : ℂ) *
            ((Real.sqrt (clip_eigs w i) : ℝ) : ℂ)) =
            fun i => ((clip_eigs w i : ℝ) : ℂ) := by
          funext i
          have hle : (0 : ℝ) ≤ clip_eigs w i := le_max_right _ _
          rw [← Complex.ofReal_mul, Real.mul_self_sqrt hle]
        rw [hd]
    _ = v * Matrix.diagonal (fun i => (clip_eigs w i : ℂ)) * v.conjTranspose :=
        (Matrix.mul_assoc _ _ _).symm

/-- C1: `tidy_probes` preserves the per-shot incoherent-sum intensity.  For a
stack of `K` probe modes `P`, per-shot weight matrices `Ws n` of rank equal to
the mode count (so square, `B_dagger` invertible — its pseudo-inverse `Bdinv`
is a left inverse — and no rank truncation), and with no negative eigenvalue
arising in the per-shot eigendecompositions (`hpos`), the probes and weights
rebuilt by `tidy_probes` reproduce, at every shot `n` and pixel `x`, exactly
the intensity of the original probes and weights.  The eigendecompositions and
the SVD performed by `scipy` enter as quantified factorizations satisfying
their defining equations (`IsEigh`, `IsSVD`); `hEigh₀` records how the code
obtains `w₀, v₀` (from the averaged density matrix) — the identity itself
holds for any factorization satisfying `hpinv` and `hsvd`. -/
theorem tidy_probes_preserves_intensity
    {S K : ℕ} {X : Type} [Fintype X]
    (Ws : Fin S → Matrix (Fin K) (Fin K) ℂ)
    (P : Matrix (Fin K) X ℂ)
    (w₀ : Fin K → ℝ) (v₀ : Matrix (Fin K) (Fin K) ℂ)
    (hEigh₀ : IsEigh (overall_rho Ws) w₀ v₀)
    (Bdinv u : Matrix (Fin K) (Fin K) ℂ)
    (hpinv : Bdinv * B_dagger w₀ v₀ = 1)
    (s : Fin K → ℝ) (vh : Matrix (Fin K) X ℂ)
    (hsvd : IsSVD (B_dagger w₀ v₀ * P) u s vh)
    (w : Fin S → Fin K → ℝ) (v : Fin S → Matrix (Fin K) (Fin K) ℂ)
    (hshot : ∀ n, IsEigh
      (transformed_rho (probe_transform Bdinv u) (get_rhos (Ws n))) (w n) (v n))
    (hpos : ∀ n i, 0 ≤ w n i)
    (n : Fin S) (x : X) :
    shot_intensity (new_Ws (w n) (v n)) (ortho_probes s vh) x
      = shot_intensity (Ws n) P x := by
  have hP : P = probe_transform Bdinv u * ortho_probes s vh := by
    calc P = 1 * P := (Matrix.one_mul P).symm
      _ = Bdinv * B_dagger w₀ v₀ * P := by rw [hpinv]
      _ = Bdinv * (B_dagger w₀ v₀ * P) := Matrix.mul_assoc _ _ _
      _ = Bdinv * (u * Matrix.diagonal (fun i => (s i : ℂ)) * vh) := by
          rw [hsvd.1]
      _ = probe_transform Bdinv u * ortho_probes s vh := by
          simp only [probe_transform, ortho_probes, Matrix.mul_assoc]
  have hC : ((shot_intensity (new_Ws (w n) (v n)) (ortho_probes s vh) x : ℝ) : ℂ)
      = ((shot_intensity (Ws n) P x : ℝ) : ℂ) := by
    rw [shot_intensity_eq_rho, shot_intensity_eq_rho, get_rhos_new_Ws]
    have hw : (fun i => ((clip_eigs (w n) i : ℝ) : ℂ))
        = fun i => ((w n i : ℝ) : ℂ) := by
      funext i
      have : clip_eigs (w n) i = w n i := max_eq_left (hpos n i)
      rw [this]
    rw [hw, ← (hshot n).1]
    conv_rhs => rw [hP]
    rw [rho_intensity_transform]
  exact_mod_cast hC

/-- C1 witness: the intensity-preservation theorem instantiated with one shot,
one mode, one pixel, identity weights and probes, and the trivial
decompositions. -/
theorem tidy_probes_preserves_intensity_witness :
    shot_intensity (new_Ws (fun _ : Fin 1 => (1 : ℝ)) 1)
        (ortho_probes (fun _ : Fin 1 => (1 : ℝ)) (1 : Matrix (Fin 1) (Fin 1) ℂ)) (0 : Fin 1)
      = shot_intensity (1 : Matrix (Fin 1) (Fin 1) ℂ)
          (1 : Matrix (Fin 1) (Fin 1) ℂ) (0 : Fin 1) := by
  have hrho : get_rhos (1 : Matrix (Fin 1) (Fin 1) ℂ) = 1 := by
    ext i j
    simp [get_rhos_apply, Fin.eq_zero i, Fin.eq_zero j, Matrix.one_apply]
  have hBd : B_dagger (fun _ : Fin 1 => (1 : ℝ)) 1 = 1 := by
    rw [B_dagger]
    have h1 : (fun i : Fin 1 => ((Real.sqrt (clip_eigs (fun _ : Fin 1 => (1 : ℝ)) i) : ℝ) : ℂ))
        = fun _ : Fin 1 => (1 : ℂ) := by
      funext i
      have : clip_eigs (fun _ : Fin 1 => (1 : ℝ)) i = 1 := by
        simp [clip_eigs]
      rw [this, Real.sqrt_one, Complex.ofReal_one]
    rw [h1, Matrix.diagonal_one, Matrix.conjTranspose_one, Matrix.one_mul]
  have hd1 : Matrix.diagonal (fun _ : Fin 1 => ((1 : ℝ) : ℂ)) = 1 := by
    have : (fun _ : Fin 1 => ((1 : ℝ) : ℂ)) = fun _ => (1 : ℂ) :=
      funext fun _ => Complex.ofReal_one
    rw [this]
    exact Matrix.diagonal_one
  have heigh : IsEigh (1 : Matrix (Fin 1) (Fin 1) ℂ) (fun _ => (1 : ℝ)) 1 := by
    constructor
    · rw [hd1, Matrix.one_mul, Matrix.conjTranspose_one, Matrix.one_mul]
    · rw [Matrix.conjTranspose_one, Matrix.one_mul]
  have hover : overall_rho (fun _ : Fin 1 => (1 : Matrix (Fin 1) (Fin 1) ℂ)) = 1 := by
    rw [overall_rho]
    simp [hrho]
  refine tidy_probes_preserves_intensity
    (fun _ : Fin 1 => (1 : Matrix (Fin 1) (Fin 1) ℂ)) 1
    (fun _ => (1 : ℝ)) 1 ?_ 1 1 ?_ (fun _ => (1 : ℝ)) 1 ?_
    (fun _ _ => (1 : ℝ)) (fun _ => 1) ?_ (fun _ _ => zero_le_one) 0 0
  · rw [hover]
    exact heigh
  · rw [hBd, Matrix.one_mul]
  · rw [hBd, Matrix.one_mul]
    refine ⟨?_, ?_, ?_, fun i => zero_le_one⟩
    · rw [hd1, Matrix.one_mul, Matrix.mul_one]
    · rw [Matrix.conjTranspose_one, Matrix.one_mul]
    · rw [Matrix.conjTranspose_one, Matrix.one_mul]
  · intro n
    have hA : probe_transform (1 : Matrix (Fin 1) (Fin 1) ℂ) 1 = 1 := by
      rw [probe_transform, Matrix.one_mul]
    have ht : transformed_rho (1 : Matrix (Fin 1) (Fin 1) ℂ) 1 = 1 := by
      rw [transformed_rho, Matrix.transpose_one, Matrix.one_mul]
      have : (1 : Matrix (Fin 1) (Fin 1) ℂ).map (starRingEnd ℂ) = 1 := by
        rw [map_starRingEnd_eq]
        ext i j
        simp [Matrix.map_apply, Matrix.one_apply, apply_ite]
      rw [this, Matrix.mul_one]
    rw [hA, hrho, ht]
    exact heigh

/-- C8: negative eigenvalues are silently clipped to zero before the square
root in both eigendecomposition sites (`B_dagger` in `orthogonalize_probes`
and the per-shot weight rebuild in `tidy_probes`): the clipped eigenvalue is
always non-negative (so the square-root argument is non-negative), a negative
eigenvalue is replaced by zero, a non-negative one is kept, and both
square-root stages only ever see the clipped values (they are invariant under
clipping their input again); no error is raised — the functions are total. -/
theorem eigenvalue_clipping {K : ℕ} (w : Fin K → ℝ)
    (v : Matrix (Fin K) (Fin K) ℂ) (i : Fin K) :
    0 ≤ clip_eigs w i ∧
    (w i < 0 → clip_eigs w i = 0) ∧
    (0 ≤ w i → clip_eigs w i = w i) ∧
    B_dagger w v = B_dagger (clip_eigs w) v ∧
    new_Ws w v = new_Ws (clip_eigs w) v := by
  have hc : clip_eigs (clip_eigs w) = clip_eigs w := by
    funext a
    exact max_eq_left (le_max_right _ _)
  refine ⟨le_max_right _ _, fun h => max_eq_right (le_of_lt h),
    fun h => max_eq_left h, ?_, ?_⟩
  · rw [B_dagger, B_dagger, hc]
  · rw [new_Ws, new_Ws, hc]

/-- C8 witness: a concrete negative eigenvalue is clipped to zero and the
square-root argument is non-negative. -/
theorem eigenvalue_clipping_witness :
    clip_eigs (fun _ : Fin 1 => (-1 : ℝ)) 0 = 0 ∧
      0 ≤ clip_eigs (fun _ : Fin 1 => (-1 : ℝ)) 0 := by
  have h := eigenvalue_clipping (fun _ : Fin 1 => (-1 : ℝ))
    (1 : Matrix (Fin 1) (Fin 1) ℂ) 0
  exact ⟨h.2.1 (by norm_num), h.1⟩

/-- C9: the probe modes returned by `orthogonalize_probes` (and installed by
`tidy_probes`) are mutually orthogonal: for `i ≠ j` the pixel-wise inner
product `⟨mode_i, mode_j⟩` of rows of `diag(s)·vh` vanishes, because `vh`
(from the SVD) has orthonormal rows. -/
theorem ortho_probes_pairwise_orthogonal {K : ℕ} {X : Type} [Fintype X]
    (M₀ : Matrix (Fin K) X ℂ) (u : Matrix (Fin K) (Fin K) ℂ) (s : Fin K → ℝ)
    (vh : Matrix (Fin K) X ℂ) (hsvd : IsSVD M₀ u s vh)
    (i j : Fin K) (hij : i ≠ j) :
    ∑ x, ortho_probes s vh i x * (starRingEnd ℂ) (ortho_probes s vh j x) = 0 := by
  have hvh : vh * vh.conjTranspose = 1 := hsvd.2.2.1
  have key : ∑ x, vh i x * (starRingEnd ℂ) (vh j x) = 0 := by
    have h1 : (vh * vh.conjTranspose) i j = (1 : Matrix (Fin K) (Fin K) ℂ) i j := by
      rw [hvh]
    rw [Matrix.mul_apply, Matrix.one_apply_ne hij] at h1
    calc ∑ x, vh i x * (starRingEnd ℂ) (vh j x)
        = ∑ x, vh i x * vh.conjTranspose x j := by
          refine Finset.sum_congr rfl fun x _ => ?_
          rw [Matrix.conjTranspose_apply, Complex.star_def]
      _ = 0 := h1
  calc ∑ x, ortho_probes s vh i x * (starRingEnd ℂ) (ortho_probes s vh j x)
      = ∑ x, ((s i : ℂ) * (s j : ℂ)) * (vh i x * (starRingEnd ℂ) (vh j x)) := by
        refine Finset.sum_congr rfl fun x _ => ?_
        simp only [ortho_probes, Matrix.diagonal_mul]
        rw [RingHom.map_mul, Complex.conj_ofReal]
        ring
    _ = ((s i : ℂ) * (s j : ℂ)) * ∑ x, vh i x * (starRingEnd ℂ) (vh j x) := by
        rw [Finset.mul_sum]
    _ = 0 := by rw [key, mul_zero]

/-- C9 witness: orthogonality of two distinct post-SVD probe modes at a
concrete 2-mode, 2-pixel instance with the identity SVD. -/
theorem ortho_probes_pairwise_orthogonal_witness :
    ∑ x : Fin 2, ortho_probes (fun _ => (1 : ℝ)) (1 : Matrix (Fin 2) (Fin 2) ℂ) 0 x *
      (starRingEnd ℂ) (ortho_probes (fun _ => (1 : ℝ)) (1 : Matrix (Fin 2) (Fin 2) ℂ) 1 x) = 0 := by
  have hd1 : Matrix.diagonal (fun _ : Fin 2 => ((1 : ℝ) : ℂ)) = 1 := by
    have : (fun _ : Fin 2 => ((1 : ℝ) : ℂ)) = fun _ => (1 : ℂ) :=
      funext fun _ => Complex.ofReal_one
    rw [this]
    exact Matrix.diagonal_one
  refine ortho_probes_pairwise_orthogonal 1 1 (fun _ => (1 : ℝ)) 1
    ⟨?_, ?_, ?_, fun i => zero_le_one⟩ 0 1 (by decide)
  · rw [hd1, Matrix.one_mul, Matrix.mul_one]
  · rw [Matrix.conjTranspose_one, Matrix.one_mul]
  · rw [Matrix.conjTranspose_one, Matrix.one_mul]

/-! ### Measurement model -/

/-- C3 counterexample: with a negative configured saturation value the
predicted intensity is clipped below zero, refuting the unconditional
non-negativity part of the claim at a concrete input (zero wavefield, zero
background, saturation `-1`). -/
theorem measurement_nonneg_counterexample :
    quadratic_background (fun _ : Fin 1 => (0 : ℂ)) 0 (some (-1)) = -1 ∧
      ¬ (0 : ℝ) ≤ quadratic_background (fun _ : Fin 1 => (0 : ℂ)) 0 (some (-1)) := by
  have hs : incoherent_sum (fun _ : Fin 1 => (0 : ℂ)) = 0 := by
    simp [incoherent_sum]
  have h : quadratic_background (fun _ : Fin 1 => (0 : ℂ)) 0 (some (-1)) = -1 := by
    show min (incoherent_sum (fun _ : Fin 1 => (0 : ℂ)) + (0 : ℝ) ^ 2) (-1) = -1
    rw [hs]
    norm_num
  exact ⟨h, by rw [h]; norm_num⟩

/-- C3 (amended): the predicted per-pixel intensity of the measurement step is
at most `S` whenever a saturation value `S` is configured, and it is
non-negative whenever the configured saturation value (if any) is
non-negative; without the non-negativity proviso on `S` the intensity is
still the non-negative sum of squared magnitudes plus squared background
before clipping. -/
theorem measurement_bounds {K : ℕ} (modes : Fin K → ℂ) (background : ℝ)
    (saturation : Option ℝ) :
    (0 ≤ incoherent_sum modes + background ^ 2) ∧
    (∀ S, saturation = some S →
      quadratic_background modes background saturation ≤ S) ∧
    ((∀ S, saturation = some S → 0 ≤ S) →
      0 ≤ quadratic_background modes background saturation) := by
  have hcore : 0 ≤ incoherent_sum modes + background ^ 2 :=
    add_nonneg (Finset.sum_nonneg fun m _ => Complex.normSq_nonneg _)
      (sq_nonneg _)
  refine ⟨hcore, fun S hS => ?_, fun h => ?_⟩
  · subst hS
    exact min_le_right _ _
  · cases saturation with
    | none => exact hcore
    | some S => exact le_min hcore (h S rfl)

/-- C3 witness: the bounds at a concrete configuration with saturation `5`. -/
theorem measurement_bounds_witness :
    quadratic_background (fun _ : Fin 1 => (0 : ℂ)) 0 (some 5) ≤ 5 ∧
      0 ≤ quadratic_background (fun _ : Fin 1 => (0 : ℂ)) 0 (some 5) := by
  have h := measurement_bounds (fun _ : Fin 1 => (0 : ℂ)) 0 (some 5)
  exact ⟨h.2.1 5 rfl, h.2.2 (fun S hS => by cases hS; norm_num)⟩

/-! ### Interaction translation bookkeeping -/

/-- C6: the interaction step's pixel translation is the basis-converted
physical translation minus the stored global minimum translation, with
`translation_scale` times the indexed learned offset added exactly when
offsets exist, and unmodified otherwise. -/
theorem interaction_translation_arithmetic {τ ι : Type}
    (t2p : τ → Fin 2 → ℝ) (min_translation : Fin 2 → ℝ)
    (translation_offsets : Option (ι → Fin 2 → ℝ))
    (translation_scale : ℝ) (index : ι) (translation : τ) :
    (translation_offsets = none →
      interaction_pix_trans t2p min_translation translation_offsets
          translation_scale index translation
        = fun d => t2p translation d - min_translation d) ∧
    (∀ offsets, translation_offsets = some offsets →
      interaction_pix_trans t2p min_translation translation_offsets
          translation_scale index translation
        = fun d => (t2p translation d - min_translation d) +
            translation_scale * offsets index d) := by
  constructor
  · intro h
    subst h
    rfl
  · intro offsets h
    subst h
    rfl

/-- C6 witness: the pixel translation at concrete inputs, with and without
learned offsets. -/
theorem interaction_translation_arithmetic_witness :
    interaction_pix_trans (fun _ : Unit => fun _ => (3 : ℝ)) (fun _ => 1)
        (some (fun _ : Unit => fun _ => 2)) 10 () ()
      = (fun _ => (3 : ℝ) - 1 + 10 * 2) ∧
    interaction_pix_trans (fun _ : Unit => fun _ => (3 : ℝ)) (fun _ => 1)
        none 10 () ()
      = (fun _ => (3 : ℝ) - 1) := by
  constructor
  · exact (interaction_translation_arithmetic (fun _ : Unit => fun _ => (3 : ℝ))
      (fun _ => 1) (some (fun _ : Unit => fun _ => 2)) 10 () ()).2 _ rfl
  · exact (interaction_translation_arithmetic (fun _ : Unit => fun _ => (3 : ℝ))
      (fun _ => 1) none 10 () ()).1 rfl

/-! ### Construction-time validation -/

/-- C7 counterexample: at `dm_rank = -2`, `n_modes = 1`, construction fails —
the weight allocation `t.zeros(len(dataset), -2, n_modes)` raises torch's
negative-dimension `RuntimeError` — although no positive rank exceeds the
mode count, and the error raised is not the descriptive rank `KeyError`; so
construction errors are not exhausted by the claim's enumerated conditions,
nor are they all descriptive. -/
theorem construction_validation_counterexample :
    (∃ msg, validate_dm_rank (some (-2)) 1 = Except.error msg) ∧
      ¬ ((0 : ℤ) < -2 ∧ (1 : ℤ) < -2) ∧
      validate_dm_rank (some (-2)) 1 ≠ Except.error
        "Density matrix rank cannot be greater than the number of modes. Use dm_rank = -1 to use a full rank matrix." := by
  have hval : validate_dm_rank (some (-2)) 1 = Except.error
      "Trying to create tensor with negative dimension" := rfl
  refine ⟨⟨_, hval⟩, by decide, ?_⟩
  rw [hval]
  intro hcon
  rw [Except.error.injEq] at hcon
  exact absurd hcon (by decide)

/-- C7 (amended): construction fails exactly when the configuration is
invalid, with a descriptive error for the explicitly checked conditions.  The
loss dispatch of `__init__` errors precisely when the lowered and stripped
loss name is none of the four recognized spellings.  The `from_dataset` rank
handling errors precisely when either a positive `dm_rank` exceeds `n_modes`
(the descriptive `KeyError`) or `dm_rank ≤ -2` (the non-descriptive
negative-dimension error from the weight allocation); `dm_rank = -1` is
accepted as full rank, `dm_rank = None` or `0` select the scalar-weight
incoherent model, and a positive in-range rank builds the rank-`dm_rank`
weight matrices. -/
theorem construction_validation :
    (∀ loss : String,
      (∃ msg, select_loss loss = Except.error msg) ↔
        normalize_loss loss ∉
          (["amplitude mse", "amplitude_mse", "poisson nll", "poisson_nll"] :
            List String)) ∧
    (∀ (dm_rank : Option ℤ) (n_modes : ℕ),
      (∃ msg, validate_dm_rank dm_rank n_modes = Except.error msg) ↔
        ∃ r, dm_rank = some r ∧ ((0 < r ∧ (n_modes : ℤ) < r) ∨ r ≤ -2)) ∧
    (∀ (r : ℤ) (n_modes : ℕ), 0 < r → (n_modes : ℤ) < r →
      validate_dm_rank (some r) n_modes = Except.error
        "Density matrix rank cannot be greater than the number of modes. Use dm_rank = -1 to use a full rank matrix.") ∧
    (∀ (r : ℤ) (n_modes : ℕ), r ≤ -2 →
      validate_dm_rank (some r) n_modes = Except.error
        "Trying to create tensor with negative dimension") ∧
    (∀ n_modes : ℕ, validate_dm_rank (some (-1)) n_modes
      = Except.ok (WeightsInit.matrix n_modes)) ∧
    (∀ n_modes : ℕ, validate_dm_rank none n_modes
      = Except.ok WeightsInit.scalar) ∧
    (∀ n_modes : ℕ, validate_dm_rank (some 0) n_modes
      = Except.ok WeightsInit.scalar) ∧
    (∀ (r : ℤ) (n_modes : ℕ), 0 < r → r ≤ (n_modes : ℤ) →
      validate_dm_rank (some r) n_modes
        = Except.ok (WeightsInit.matrix r.toNat)) := by
  refine ⟨fun loss => ?_, fun d n => ?_, fun r n hpos hgt => ?_,
    fun r n hle => ?_, fun n => ?_, fun n => rfl, fun n => ?_,
    fun r n hpos hle => ?_⟩
  · simp only [select_loss]
    split_ifs with h1 h2
    · have hm : normalize_loss loss ∈
          (["amplitude mse", "amplitude_mse", "poisson nll", "poisson_nll"] :
            List String) := by
        rcases h1 with h | h <;> simp [h]
      simp [hm]
    · have hm : normalize_loss loss ∈
          (["amplitude mse", "amplitude_mse", "poisson nll", "poisson_nll"] :
            List String) := by
        rcases h2 with h | h <;> simp [h]
      simp [hm]
    · push_neg at h1 h2
      have hm : normalize_loss loss ∉
          (["amplitude mse", "amplitude_mse", "poisson nll", "poisson_nll"] :
            List String) := by
        simp only [List.mem_cons, List.not_mem_nil, or_false, not_or]
        exact ⟨h1.1, h1.2, h2.1, h2.2⟩
      exact iff_of_true ⟨_, rfl⟩ hm
  · cases d with
    | none =>
      refine iff_of_false ?_ ?_
      · rintro ⟨msg, hmsg⟩
        exact Except.noConfusion hmsg
      · rintro ⟨r, hr, -⟩
        exact Option.noConfusion hr
    | some r =>
      simp only [validate_dm_rank]
      split_ifs with h0 hgt hm1 hneg
      · exact iff_of_true ⟨_, rfl⟩
          ⟨r, rfl, Or.inl ⟨lt_of_le_of_lt (Int.natCast_nonneg n) hgt, hgt⟩⟩
      · refine iff_of_false ?_ ?_
        · rintro ⟨msg, hmsg⟩
          exact hmsg.elim
        · rintro ⟨r', hr', hcase⟩
          rw [Option.some.injEq] at hr'
          rcases hcase with ⟨h1, -⟩ | h3 <;> omega
      · exact iff_of_true ⟨_, rfl⟩ ⟨r, rfl, Or.inr (by omega)⟩
      · refine iff_of_false ?_ ?_
        · rintro ⟨msg, hmsg⟩
          exact hmsg.elim
        · rintro ⟨r', hr', hcase⟩
          rw [Option.some.injEq] at hr'
          rcases hcase with ⟨-, h2⟩ | h3 <;> omega
      · refine iff_of_false ?_ ?_
        · rintro ⟨msg, hmsg⟩
          exact hmsg.elim
        · rintro ⟨r', hr', hcase⟩
          rw [Option.some.injEq] at hr'
          rw [not_not] at h0
          rcases hcase with ⟨h1, -⟩ | h3 <;> omega
  · simp only [validate_dm_rank]
    rw [if_pos (by omega : r ≠ 0), if_pos hgt]
  · simp only [validate_dm_rank]
    rw [if_pos (by omega : r ≠ 0), if_neg (by omega : ¬ (r > (n : ℤ))),
      if_neg (by omega : ¬ (r = -1)), if_pos (by omega : r < 0)]
  · show validate_dm_rank (some (-1)) n = Except.ok (WeightsInit.matrix n)
    simp only [validate_dm_rank]
    rw [if_pos (by norm_num : (-1 : ℤ) ≠ 0),
      if_neg (by omega : ¬ ((-1 : ℤ) > (n : ℤ)))]
    simp
  · show validate_dm_rank (some 0) n = Except.ok WeightsInit.scalar
    simp only [validate_dm_rank]
    rw [if_neg (by simp : ¬ ((0 : ℤ) ≠ 0))]
  · simp only [validate_dm_rank]
    rw [if_pos (by omega : r ≠ 0), if_neg (by omega : ¬ (r > (n : ℤ))),
      if_neg (by omega : ¬ (r = -1)), if_neg (by omega : ¬ (r < 0))]

/-- C7 witness: at concrete inputs, an unrecognized loss name errors, an
over-large positive rank errors, and an in-range positive rank builds the
weight matrices. -/
theorem construction_validation_witness :
    (∃ msg, select_loss "bogus" = Except.error msg) ∧
      (∃ msg, validate_dm_rank (some 3) 2 = Except.error msg) ∧
      validate_dm_rank (some 2) 3 = Except.ok (WeightsInit.matrix 2) := by
  have h := construction_validation
  refine ⟨(h.1 "bogus").mpr (by decide), (h.2.1 (some 3) 2).mpr ?_, ?_⟩
  · exact ⟨3, rfl, Or.inl ⟨by norm_num, by norm_num⟩⟩
  · exact h.2.2.2.2.2.2.2 2 3 (by norm_num) (by norm_num)

/-! ### Probe rescaling -/

/-- C10 counterexample: for a probe guess whose first mode is identically zero
(so `probe_norm = 0`) but whose second mode is nonzero, the probe exported by
`save_results` does not equal the original guess (the stored probe is the
guess divided by zero). -/
theorem probe_rescaling_counterexample :
    saved_probe gZero 1 0 ≠ gZero 1 0 := by
  have hnorm : probe_norm gZero = 0 := by
    have hfun : (fun x : Fin 1 => Complex.abs (gZero 0 x)) = fun _ => 0 := by
      funext x
      simp [gZero]
    rw [probe_norm, hfun]
    exact Finset.sup'_const _ 0
  have hz : gZero 1 0 = 1 := by
    simp [gZero]
  rw [saved_probe, stored_probe, hnorm, hz]
  simp

/-- C10 (amended): provided the first mode of the probe guess is not
identically zero (`probe_norm ≠ 0`), the internal probe rescaling is invisible
at the public interface: `save_results` returns exactly the original probe
guess, and the exit waves (probe_norm times the linear downstream pipeline
applied to the stored probe) equal the pipeline applied to the unscaled
guess. -/
theorem probe_rescaling_invisible {K : ℕ} {X ι : Type} [Fintype X] [Nonempty X]
    (probe_guess : Fin (K + 1) → X → ℂ)
    (hnz : probe_norm probe_guess ≠ 0)
    (F : (Fin (K + 1) → X → ℂ) → ι → ℂ)
    (hF : ∀ (c : ℂ) (p : Fin (K + 1) → X → ℂ),
      F (fun k x => c * p k x) = fun i => c * F p i) :
    saved_probe probe_guess = probe_guess ∧
      interaction_exit_waves F probe_guess = F probe_guess := by
  have hc : ((probe_norm probe_guess : ℝ) : ℂ) ≠ 0 :=
    Complex.ofReal_ne_zero.mpr hnz
  constructor
  · funext k x
    show probe_guess k x / ((probe_norm probe_guess : ℝ) : ℂ) *
        ((probe_norm probe_guess : ℝ) : ℂ) = probe_guess k x
    exact div_mul_cancel₀ _ hc
  · funext i
    show ((probe_norm probe_guess : ℝ) : ℂ) *
        F (stored_probe probe_guess) i = F probe_guess i
    have hst : stored_probe probe_guess =
        fun k x => (((probe_norm probe_guess : ℝ) : ℂ))⁻¹ * probe_guess k x := by
      funext k x
      show probe_guess k x / ((probe_norm probe_guess : ℝ) : ℂ) = _
      rw [div_eq_mul_inv, mul_comm]
    rw [hst, hF, ← mul_assoc, mul_inv_cancel₀ hc, one_mul]

/-- C10 witness: the rescaling round trip at a concrete nonzero single-mode
probe guess with a concrete linear pipeline. -/
theorem probe_rescaling_invisible_witness :
    saved_probe gTwo = gTwo ∧
      interaction_exit_waves Fhead gTwo = Fhead gTwo := by
  refine probe_rescaling_invisible gTwo ?_ Fhead (fun c p => rfl)
  have hfun : (fun x : Fin 1 => Complex.abs (gTwo 0 x)) = fun _ => 2 := by
    funext x
    simp [gTwo]
  rw [probe_norm, hfun]
  rw [Finset.sup'_const _ (2 : ℝ)]
  norm_num

/-! ### Exit waves (`get_exit_waves`) -/

lemma arr_of_nrows (r c : ℕ) (f : ℕ → ℕ → ℂ) : (arr_of r c f).nrows = r := rfl

lemma arr_of_ncols (r c : ℕ) (f : ℕ → ℕ → ℂ) : (arr_of r c f).ncols = c := rfl

lemma arr_of_ext {r c : ℕ} {f g : ℕ → ℕ → ℂ}
    (h : ∀ i j, i < r → j < c → f i j = g i j) :
    arr_of r c f = arr_of r c g := by
  unfold arr_of
  congr 1
  funext i j
  by_cases hij : i < r ∧ j < c
  · rw [if_pos hij, if_pos hij, h i j hij.1 hij.2]
  · rw [if_neg hij, if_neg hij]

lemma arr_of_entry {r c : ℕ} {f : ℕ → ℕ → ℂ} {i j : ℕ}
    (hi : i < r) (hj : j < c) : (arr_of r c f).entry i j = f i j :=
  if_pos ⟨hi, hj⟩

lemma bdim_same (n : ℕ) : bdim n n = some n := by
  unfold bdim
  rw [if_pos rfl]

lemma bidx_of_lt {n i : ℕ} (h : i < n) : bidx n i = i := by
  unfold bidx
  split_ifs with h1
  · subst h1
    omega
  · rfl

lemma bcast_op_same (op : ℂ → ℂ → ℂ) (r c : ℕ) (f g : ℕ → ℕ → ℂ) :
    bcast_op op (arr_of r c f) (arr_of r c g)
      = some (arr_of r c (fun i j => op (f i j) (g i j))) := by
  have h1 : bdim (arr_of r c f).nrows (arr_of r c g).nrows = some r := bdim_same r
  have h2 : bdim (arr_of r c f).ncols (arr_of r c g).ncols = some c := bdim_same c
  unfold bcast_op
  rw [h1, h2]
  exact congrArg some (arr_of_ext fun i j hi hj => by
    show op ((arr_of r c f).entry (bidx r i) (bidx c j))
        ((arr_of r c g).entry (bidx r i) (bidx c j)) = op (f i j) (g i j)
    rw [bidx_of_lt hi, bidx_of_lt hj, arr_of_entry hi hj, arr_of_entry hi hj])

lemma arr_add_same (r c : ℕ) (f g : ℕ → ℕ → ℂ) :
    arr_add (arr_of r c f) (arr_of r c g)
      = some (arr_of r c (fun i j => f i j + g i j)) :=
  bcast_op_same _ r c f g

lemma cmult_same (r c : ℕ) (f g : ℕ → ℕ → ℂ) :
    cmult (arr_of r c f) (arr_of r c g)
      = some (arr_of r c (fun i j => f i j * g i j)) :=
  bcast_op_same _ r c f g

lemma arr_add_none {A B : NDArr} (h : bdim A.ncols B.ncols = none) :
    arr_add A B = none := by
  unfold arr_add bcast_op
  rw [h]
  rcases hx : bdim A.nrows B.nrows with _ | r
  · rfl
  · rfl

lemma smul_arr_of (t : ℝ) (r c : ℕ) (f : ℕ → ℕ → ℂ) :
    smul_arr t (arr_of r c f) = arr_of r c (fun i j => (t : ℂ) * f i j) := by
  show arr_of r c (fun i j => (t : ℂ) * (arr_of r c f).entry i j)
      = arr_of r c (fun i j => (t : ℂ) * f i j)
  exact arr_of_ext fun i j hi hj => by rw [arr_of_entry hi hj]

lemma py_slice_start_natCast {len a : ℕ} (h : a ≤ len) :
    py_slice_start len (a : ℤ) = a := by
  unfold py_slice_start
  split_ifs with h1
  · omega
  · omega

/-- A fully in-bounds window at non-negative integer offsets is the plain
shifted block of the object. -/
lemma window_full {H W : ℕ} (O : ℕ → ℕ → ℂ) {r0 c0 h w : ℕ}
    (hr : r0 + h ≤ H) (hc : c0 + w ≤ W) :
    window (arr_of H W O) (r0 : ℤ) (c0 : ℤ) h w
      = arr_of h w (fun i j => O (r0 + i) (c0 + j)) := by
  have hs1 : py_slice_start H (r0 : ℤ) = r0 := py_slice_start_natCast (by omega)
  have hs2 : py_slice_start W (c0 : ℤ) = c0 := py_slice_start_natCast (by omega)
  have he1 : py_slice_start H ((r0 : ℤ) + (h : ℤ)) = r0 + h := by
    rw [show ((r0 : ℤ) + (h : ℤ)) = ((r0 + h : ℕ) : ℤ) by push_cast; ring]
    exact py_slice_start_natCast hr
  have he2 : py_slice_start W ((c0 : ℤ) + (w : ℤ)) = c0 + w := by
    rw [show ((c0 : ℤ) + (w : ℤ)) = ((c0 + w : ℕ) : ℤ) by push_cast; ring]
    exact py_slice_start_natCast hc
  have hl1 : py_slice_len H (r0 : ℤ) ((r0 : ℤ) + (h : ℤ)) = h := by
    unfold py_slice_len
    rw [he1, hs1]
    omega
  have hl2 : py_slice_len W (c0 : ℤ) ((c0 : ℤ) + (w : ℤ)) = w := by
    unfold py_slice_len
    rw [he2, hs2]
    omega
  unfold window
  rw [arr_of_nrows, arr_of_ncols, hl1, hl2, hs1, hs2]
  exact arr_of_ext fun i j hi hj =>
    arr_of_entry (by omega) (by omega)

/-- One exit wave at an exact integer in-bounds translation, with the
one-pixel margin needed by the interpolation taps: the bilinear weights
degenerate and the result is the probe times the plain object window. -/
lemma exit_wave_at_integer {ph pw H W : ℕ} (p O : ℕ → ℕ → ℂ) (a b : ℕ)
    (hr : a + ph + 1 ≤ H) (hc : b + pw + 1 ≤ W) :
    exit_wave_at (arr_of ph pw p) (arr_of H W O) (a : ℝ) (b : ℝ)
      = some (arr_of ph pw (fun i j => p i j * O (a + i) (b + j))) := by
  have hfa : ⌊((a : ℕ) : ℝ)⌋ = (a : ℤ) := Int.floor_natCast a
  have hfb : ⌊((b : ℕ) : ℝ)⌋ = (b : ℤ) := Int.floor_natCast b
  simp only [exit_wave_at, arr_of_nrows, arr_of_ncols, hfa, hfb,
    Int.cast_natCast, sub_self, sub_zero, mul_one, one_mul, mul_zero, zero_mul]
  rw [show ((a : ℤ) + 1) = (((a + 1 : ℕ)) : ℤ) by push_cast; ring,
    show ((b : ℤ) + 1) = (((b + 1 : ℕ)) : ℤ) by push_cast; ring]
  rw [window_full O (by omega) (by omega), window_full O (by omega) (by omega),
    window_full O (by omega) (by omega), window_full O (by omega) (by omega)]
  rw [smul_arr_of, smul_arr_of, smul_arr_of, smul_arr_of]
  simp only [Complex.ofReal_one, Complex.ofReal_zero, one_mul, zero_mul]
  rw [arr_add_same]
  simp only []
  rw [arr_add_same]
  simp only []
  rw [arr_add_same]
  simp only []
  rw [cmult_same]
  exact congrArg some (arr_of_ext fun i j hi hj => by ring)

/-- C5 counterexample: at the integer translation `(0,0)` with a `1×3` probe
and a `1×3` object — the selected window exactly in bounds — `get_exit_waves`
fails (shape mismatch between the `1×3` base window and the truncated `1×2`
one-pixel-shifted interpolation window) instead of returning the probe times
the object window. -/
theorem get_exit_waves_edge_counterexample :
    get_exit_waves probe13 obj13 [((0 : ℝ), (0 : ℝ))] = none := by
  have hwin : exit_wave_at probe13 obj13 (0 : ℝ) (0 : ℝ) = none := by
    simp only [exit_wave_at, probe13, obj13, arr_of_nrows, arr_of_ncols,
      Int.floor_zero, Int.cast_zero, sub_zero, sub_self, mul_one, one_mul,
      mul_zero, zero_mul]
    have hnone : arr_add
        (smul_arr 1 (window (arr_of 1 3 (fun _ _ => (1 : ℂ))) 0 0 1 3))
        (smul_arr 0 (window (arr_of 1 3 (fun _ _ => (1 : ℂ))) 0 (0 + 1) 1 3))
        = none := by
      apply arr_add_none
      decide
    rw [hnone]
  simp only [get_exit_waves, List.mapM_cons, List.mapM_nil]
  rw [hwin]
  rfl

/-- C5 (amended): for every probe, object and list of exact integer
translations such that each selected window, enlarged by the one-pixel margin
used by the bilinear interpolation taps, lies within the object bounds,
`get_exit_waves` returns exactly, for each translation, the probe multiplied
elementwise by the plain object window at that integer offset. -/
theorem get_exit_waves_integer_translations {ph pw H W : ℕ}
    (p O : ℕ → ℕ → ℂ) (trs : List (ℕ × ℕ))
    (hb : ∀ t ∈ trs, t.1 + ph + 1 ≤ H ∧ t.2 + pw + 1 ≤ W) :
    get_exit_waves (arr_of ph pw p) (arr_of H W O)
        (trs.map (fun t => ((t.1 : ℝ), (t.2 : ℝ))))
      = some (trs.map (fun t =>
          arr_of ph pw (fun i j => p i j * O (t.1 + i) (t.2 + j)))) := by
  revert hb
  induction trs with
  | nil =>
    intro _
    rfl
  | cons t ts ih =>
    intro hb
    have h1 := hb t (List.mem_cons_self t ts)
    have h2 : ∀ t' ∈ ts, t'.1 + ph + 1 ≤ H ∧ t'.2 + pw + 1 ≤ W :=
      fun t' ht' => hb t' (List.mem_cons_of_mem _ ht')
    simp only [List.map_cons, get_exit_waves, List.mapM_cons]
    rw [show exit_wave_at (arr_of ph pw p) (arr_of H W O)
        ((t.1 : ℝ), (t.2 : ℝ)).1 ((t.1 : ℝ), (t.2 : ℝ)).2
        = some (arr_of ph pw (fun i j => p i j * O (t.1 + i) (t.2 + j))) from
      exit_wave_at_integer p O t.1 t.2 h1.1 h1.2]
    have ihh := ih h2
    simp only [get_exit_waves] at ihh
    rw [ihh]
    rfl

/-- C5 witness: a concrete integer-translation exit wave, one pixel away from
the boundary margin. -/
theorem get_exit_waves_integer_translations_witness :
    get_exit_waves (arr_of 1 1 (fun _ _ => (1 : ℂ)))
        (arr_of 3 3 (fun _ _ => (1 : ℂ)))
        ([((0 : ℕ), (0 : ℕ))].map (fun t => ((t.1 : ℝ), (t.2 : ℝ))))
      = some ([((0 : ℕ), (0 : ℕ))].map (fun t =>
          arr_of 1 1 (fun i j => (fun _ _ => (1 : ℂ)) i j *
            (fun _ _ => (1 : ℂ)) (t.1 + i) (t.2 + j)))) := by
  refine get_exit_waves_integer_translations (fun _ _ => (1 : ℂ))
    (fun _ _ => (1 : ℂ)) [((0 : ℕ), (0 : ℕ))] ?_
  intro t ht
  rw [List.mem_singleton] at ht
  subst ht
  exact ⟨by norm_num, by norm_num⟩

/-! ### Angular-spectrum propagator kernel -/

/-- C4: the kernel built by `generate_angular_spectrum_propagator` does not
match the kernel the claim specifies.  `np.meshgrid` with its default `'xy'`
indexing puts `ki = fftfreq(shape[0], spacing[0])` along the SECOND array
axis (and transposes the shape), whereas the claim has `kx` varying along the
first axis.  At shape `(2,2)`, spacing `(1/2, 1)`, wavelength `2π`, `z = 1`,
entry `(0,1)`: the code's frequency argument is
`1 - ki[1]² - kj[0]² = 1 - 1 - 0 = 0`, giving kernel value `exp(0) = 1`,
while the claim's argument is `1 - ki[0]² - kj[1]² = 3/4`, giving
`exp(i·√(3/4)) ≠ 1`. -/
theorem angular_spectrum_meshgrid_divergence :
    generate_angular_spectrum_propagator (2, 2) (1/2, 1) (2 * Real.pi) 1 0 1 = 1 ∧
      claimed_angular_spectrum_propagator (2, 2) (1/2, 1) (2 * Real.pi) 1 0 1 ≠ 1 := by
  have hpi : (2 * Real.pi) ≠ 0 := by positivity
  have hratio : 2 * Real.pi / (2 * Real.pi) = 1 := div_self hpi
  have hf1_1 : fftfreq 2 (1/2) 1 = -1 := by
    unfold fftfreq
    rw [if_neg (by norm_num)]
    norm_num
  have hf1_0 : fftfreq 2 (1/2) 0 = 0 := by
    unfold fftfreq
    rw [if_pos (by norm_num)]
    norm_num
  have hf2_0 : fftfreq 2 1 0 = 0 := by
    unfold fftfreq
    rw [if_pos (by norm_num)]
    norm_num
  have hf2_1 : fftfreq 2 1 1 = -(1/2) := by
    unfold fftfreq
    rw [if_neg (by norm_num)]
    norm_num
  constructor
  · simp only [generate_angular_spectrum_propagator, Fin.val_zero, Fin.val_one]
    have harg : (2 * Real.pi / (2 * Real.pi)) ^ 2 - fftfreq 2 (1/2) 1 ^ 2
        - fftfreq 2 1 0 ^ 2 = 0 := by
      rw [hratio, hf1_1, hf2_0]
      norm_num
    rw [harg, Real.sqrt_zero, Complex.ofReal_zero, mul_zero, zero_mul,
      Complex.exp_zero]
  · simp only [claimed_angular_spectrum_propagator, Fin.val_zero, Fin.val_one]
    have harg : (2 * Real.pi / (2 * Real.pi)) ^ 2 - fftfreq 2 (1/2) 0 ^ 2
        - fftfreq 2 1 1 ^ 2 = 3/4 := by
      rw [hratio, hf1_0, hf2_1]
      norm_num
    rw [harg, Complex.ofReal_one, mul_one]
    intro hone
    rw [Complex.exp_eq_one_iff] at hone
    obtain ⟨n, hn⟩ := hone
    have him : Real.sqrt (3/4) = (n : ℝ) * (2 * Real.pi) := by
      have h := congrArg Complex.im hn
      simpa using h
    have hpos : 0 < Real.sqrt (3/4) := Real.sqrt_pos.mpr (by norm_num)
    have hlt : Real.sqrt (3/4) < 1 := by
      have h34 := Real.sqrt_lt_sqrt (by norm_num : (0:ℝ) ≤ 3/4)
        (by norm_num : (3:ℝ)/4 < 1)
      rwa [Real.sqrt_one] at h34
    have hπ := Real.pi_gt_three
    rcases le_or_lt (n : ℝ) 0 with hn0 | hn0
    · nlinarith
    · have hn1 : (1 : ℝ) ≤ (n : ℝ) := by
        have : (0 : ℤ) < n := by exact_mod_cast hn0
        exact_mod_cast this
      nlinarith

end CDTools

end
